import Mathlib

/-!
Shallow embedding of the cogix-release worker's core (src/src/index.ts):
the key/tag metadata parser `parseReleaseMetadata`, the size formatter
`formatFileSize`, and the pure cores of the three listing endpoints
(`GET /api/releases`, `GET /api/releases/:product`, `GET /api/stats`).

Strings are Lean `String`s; JavaScript's `String.prototype.split` with a
single-character separator is modelled by `jsSplit`, `Array.prototype.join`
by `jsJoin`, and the `x || y` fallback idiom on possibly-absent strings
(where both `undefined` and `""` are falsy) by `jsOr`.
Timestamps (`Date` / `getTime`) are modelled as `Nat` epoch milliseconds;
an absent (`none`) timestamp models an invalid `Date`, the only way the
parser's `try`/`catch` can fire (`toISOString` throwing), making the
parser return `null`.
-/

/-- JS `s.split(sep)` on the character list of a string (single-char
separator): always returns at least one (possibly empty) piece. -/
def splitCharList (sep : Char) : List Char → List (List Char)
  | [] => [[]]
  | c :: cs =>
    match splitCharList sep cs with
    | [] => [[]]
    | s :: ss => if c = sep then [] :: s :: ss else (c :: s) :: ss

/-- JS `s.split(sep)` for a single-character separator. -/
def jsSplit (sep : Char) (s : String) : List String :=
  (splitCharList sep s.data).map (fun l => String.mk l)

/-- JS `arr.join(sep)`. -/
def jsJoin (sep : String) : List String → String
  | [] => ""
  | [x] => x
  | x :: y :: xs => x ++ sep ++ jsJoin sep (y :: xs)

/-- JS `x || d` where `x` is a possibly-absent string: `undefined` and the
empty string are falsy and fall through to the default. -/
def jsOr (o : Option String) (d : String) : String :=
  match o with
  | none => d
  | some s => if s = "" then d else s

/-- The recognized custom-metadata tag fields (`object.customMetadata`). -/
structure Tags where
  product : Option String
  version : Option String
  platform : Option String
  arch : Option String
  checksum : Option String
  description : Option String
deriving DecidableEq, Repr

/-- The empty tag map (`{}` in the source's `object.customMetadata || {}`). -/
def noTags : Tags := ⟨none, none, none, none, none, none⟩

/-- A raw storage entry as returned by the object store's listing:
key, byte size, upload timestamp and custom tags.  `uploaded = none`
models a structurally absent/invalid creation timestamp. -/
structure R2Object where
  key : String
  size : Nat
  uploaded : Option Nat
  customMetadata : Tags
deriving DecidableEq, Repr

/-- The parsed release record (interface `ReleaseMetadata`). -/
structure ReleaseMetadata where
  product : String
  version : String
  platform : String
  arch : String
  uploadDate : Nat
  size : Nat
  filename : String
  checksum : Option String
  description : Option String
deriving DecidableEq, Repr

/-- `parseReleaseMetadata` from src/src/index.ts.

Splits the key on `/`.  With fewer than 4 segments it falls back to
tag-only fields (default `"unknown"`) and `filename = key.split('/').pop() || key`.
With ≥ 4 segments it destructures
`[product, version, platformArch, ...filenameParts]`, splits
`platformArch` on `-` into `[platform, arch]`, and applies the
`customMetadata.field || keyDerived` override rule
(`arch` additionally falls back to `"unknown"`). -/
def parseReleaseMetadata (o : R2Object) : Option ReleaseMetadata :=
  match o.uploaded with
  | none => none
  | some t =>
    let cm := o.customMetadata
    match jsSplit '/' o.key with
    | product :: version :: platformArch :: f1 :: fs =>
      let dashParts := jsSplit '-' platformArch
      let platform := dashParts.headD ""
      let archFromKey := dashParts[1]?
      some { product := jsOr cm.product product
             version := jsOr cm.version version
             platform := jsOr cm.platform platform
             arch := jsOr cm.arch (jsOr archFromKey "unknown")
             uploadDate := t
             size := o.size
             filename := jsJoin "/" (f1 :: fs)
             checksum := cm.checksum
             description := cm.description }
    | parts =>
      let filename :=
        match parts.getLast? with
        | none => o.key
        | some s => if s = "" then o.key else s
      some { product := jsOr cm.product "unknown"
             version := jsOr cm.version "unknown"
             platform := jsOr cm.platform "unknown"
             arch := jsOr cm.arch "unknown"
             uploadDate := t
             size := o.size
             filename := filename
             checksum := cm.checksum
             description := cm.description }

/-- Render `r / 100` the way JS prints the number `Math.round(x*100)/100`
(up to two decimals, trailing zeros dropped). -/
def showCents (r : Nat) : String :=
  if r % 100 = 0 then toString (r / 100)
  else if r % 10 = 0 then toString (r / 100) ++ "." ++ toString (r / 10 % 10)
  else if r % 100 < 10 then toString (r / 100) ++ ".0" ++ toString (r % 100)
  else toString (r / 100) ++ "." ++ toString (r % 100)

/-- The unit selected by `sizes[i]` in the source: the JS indexing yields
`undefined` past the end of the array, which string-concatenates as
`"undefined"`. -/
def sizeUnit (i : Nat) : String :=
  (["B", "KB", "MB", "GB", "TB"][i]?).getD "undefined"

/-- `formatFileSize` from src/src/index.ts.  `Math.floor(Math.log bytes / Math.log 1024)`
is modelled exactly as `Nat.log 1024 bytes`, and
`Math.round(bytes / 1024^i * 100) / 100` as the exact rational rounding
`⌊(100·bytes/1024^i) + 1/2⌋ / 100`. -/
def formatFileSize (bytes : Nat) : String :=
  if bytes = 0 then "0 B"
  else
    showCents ((200 * bytes + 1024 ^ Nat.log 1024 bytes) / (2 * 1024 ^ Nat.log 1024 bytes))
      ++ " " ++ sizeUnit (Nat.log 1024 bytes)

/-- A listed release (interface `ReleaseFile`). -/
structure ReleaseFile where
  key : String
  size : Nat
  uploaded : Nat
  metadata : ReleaseMetadata
deriving DecidableEq, Repr

/-- The push performed by the listing loops: keep an entry iff its parse
succeeds (`uploaded` equals the parsed `uploadDate`, both being the
object's timestamp). -/
def toReleaseFile (o : R2Object) : Option ReleaseFile :=
  match parseReleaseMetadata o with
  | none => none
  | some m => some { key := o.key, size := o.size, uploaded := m.uploadDate, metadata := m }

/-- One step of the stable descending insertion: an element goes after
every element with a greater-or-equal timestamp (JS's stable
`sort((a, b) => b.uploaded.getTime() - a.uploaded.getTime())`). -/
def sortInsert (a : ReleaseFile) : List ReleaseFile → List ReleaseFile
  | [] => [a]
  | b :: l => if b.uploaded ≤ a.uploaded then a :: b :: l else b :: sortInsert a l

/-- Stable sort by `uploaded`, descending. -/
def sortByUploadedDesc : List ReleaseFile → List ReleaseFile
  | [] => []
  | a :: l => sortInsert a (sortByUploadedDesc l)

/-- Pure core of `GET /api/releases`: parse every listed object, drop
failures, sort by upload time descending. -/
def listReleases (objects : List R2Object) : List ReleaseFile :=
  sortByUploadedDesc (objects.filterMap toReleaseFile)

/-- Boolean key-prefix test (used to model the store's prefix listing). -/
def hasPref (p s : String) : Bool :=
  p.data.isPrefixOf s.data

/-- Modelled from the spec: the object store's `list({ prefix })` call
(an external collaborator, not part of src/) returns exactly the stored
entries whose keys start with the given prefix. -/
def r2ListWithPref (objects : List R2Object) (p : String) : List R2Object :=
  objects.filter (fun o => hasPref p o.key)

/-- Pure core of `GET /api/releases/:product`: list the store with prefix
`product ++ "/"`, parse, keep entries whose resolved `metadata.product`
equals the requested product, sort descending. -/
def listProductReleases (objects : List R2Object) (product : String) : List ReleaseFile :=
  sortByUploadedDesc
    (((r2ListWithPref objects (product ++ "/")).filterMap toReleaseFile).filter
      (fun r => r.metadata.product == product))

/-- Per-product accumulator entry (`{ count, size }`). -/
structure ProductStat where
  count : Nat
  size : Nat
deriving DecidableEq, Repr

/-- The mutable `stats` record of `GET /api/stats`; the two JS objects
keyed by product/platform are association lists in insertion order. -/
structure Stats where
  totalReleases : Nat
  totalSize : Nat
  products : List (String × ProductStat)
  platforms : List (String × Nat)
  latestUpload : Option Nat
deriving DecidableEq, Repr

/-- `stats.products[p] = { count+1, size+sz }`, creating the entry at the
end (JS property insertion order) when absent. -/
def bumpProduct (ps : List (String × ProductStat)) (p : String) (sz : Nat) :
    List (String × ProductStat) :=
  match ps with
  | [] => [(p, ⟨1, sz⟩)]
  | (q, st) :: rest =>
    if q = p then (q, ⟨st.count + 1, st.size + sz⟩) :: rest
    else (q, st) :: bumpProduct rest p sz

/-- `stats.platforms[p] = (stats.platforms[p] || 0) + 1`. -/
def bumpPlatform (ps : List (String × Nat)) (p : String) : List (String × Nat) :=
  match ps with
  | [] => [(p, 1)]
  | (q, n) :: rest =>
    if q = p then (q, n + 1) :: rest
    else (q, n) :: bumpPlatform rest p

/-- One loop iteration of `GET /api/stats`. -/
def statsStep (s : Stats) (o : R2Object) : Stats :=
  match parseReleaseMetadata o with
  | none => s
  | some m =>
    { totalReleases := s.totalReleases + 1
      totalSize := s.totalSize + o.size
      products := bumpProduct s.products m.product o.size
      platforms := bumpPlatform s.platforms m.platform
      latestUpload :=
        match s.latestUpload with
        | none => some m.uploadDate
        | some u => if u < m.uploadDate then some m.uploadDate else some u }

/-- Pure core of `GET /api/stats`. -/
def computeStats (objects : List R2Object) : Stats :=
  objects.foldl statsStep ⟨0, 0, [], [], none⟩

/-- JS `pieces.join(sep)` at the character-list level. -/
def joinCharList (sep : Char) : List (List Char) → List Char
  | [] => []
  | [x] => x
  | x :: y :: xs => x ++ sep :: joinCharList sep (y :: xs)

/-- Boolean suffix test on strings. -/
def strEndsWith (s suf : String) : Bool :=
  suf.data.isSuffixOf s.data

/-- The spec-side description of a field resolved "only from the tag map":
a non-empty tag value is taken verbatim, a missing or empty tag resolves
to the literal string `"unknown"`. -/
def takesTagElseUnknown (tag : Option String) (v : String) : Prop :=
  (∀ s, tag = some s → s ≠ "" → v = s) ∧ ((tag = none ∨ tag = some "") → v = "unknown")

/-- Sum of the per-product counts of an accumulated `products` object. -/
def sumCounts (ps : List (String × ProductStat)) : Nat :=
  (ps.map (fun x => x.2.count)).sum

example : jsSplit '/' "a/b" = ["a", "b"] := by decide
example : jsSplit '/' "a/" = ["a", ""] := by decide
example : jsSplit '-' "linux-x64" = ["linux", "x64"] := by decide
example : jsSplit '-' "a-b-c" = ["a", "b", "c"] := by decide
example :
    (parseReleaseMetadata ⟨"p/v/linux-x64/f.bin", 7, some 5, noTags⟩) =
      some ⟨"p", "v", "linux", "x64", 5, 7, "f.bin", none, none⟩ := by decide
example :
    (parseReleaseMetadata ⟨"justafile.exe", 7, some 5, noTags⟩) =
      some ⟨"unknown", "unknown", "unknown", "unknown", 5, 7, "justafile.exe", none, none⟩ := by
  decide


theorem splitCharList_ne_nil (sep : Char) (l : List Char) : splitCharList sep l ≠ [] := by
  cases l with
  | nil => simp [splitCharList]
  | cons c cs =>
    simp only [splitCharList]
    cases splitCharList sep cs with
    | nil => simp
    | cons s ss => by_cases hc : c = sep <;> simp [hc]

theorem splitCharList_of_not_mem {sep : Char} {l : List Char} (h : sep ∉ l) :
    splitCharList sep l = [l] := by
  induction l with
  | nil => rfl
  | cons c cs ih =>
    have hc : c ≠ sep := fun hcs => h (hcs ▸ List.mem_cons_self c cs)
    have hcs : sep ∉ cs := fun hm => h (List.mem_cons_of_mem c hm)
    simp [splitCharList, ih hcs, hc]

theorem splitCharList_append_cons {sep : Char} {xs : List Char} (ys : List Char)
    (h : sep ∉ xs) : splitCharList sep (xs ++ sep :: ys) = xs :: splitCharList sep ys := by
  induction xs with
  | nil =>
    simp only [List.nil_append, splitCharList]
    cases hy : splitCharList sep ys with
    | nil => exact absurd hy (splitCharList_ne_nil sep ys)
    | cons s ss => simp
  | cons x xs ih =>
    have hx : x ≠ sep := fun hxs => h (hxs ▸ List.mem_cons_self x xs)
    have hxs : sep ∉ xs := fun hm => h (List.mem_cons_of_mem x hm)
    simp only [List.cons_append, splitCharList, List.append_eq]
    rw [ih hxs]
    simp [hx]

theorem splitCharList_head (sep : Char) (l : List Char) :
    (splitCharList sep l).head? = some (l.takeWhile (fun c => c != sep)) := by
  induction l with
  | nil => rfl
  | cons c cs ih =>
    simp only [splitCharList]
    cases h : splitCharList sep cs with
    | nil => exact absurd h (splitCharList_ne_nil sep cs)
    | cons s ss =>
      rw [h] at ih
      simp only [List.head?_cons, Option.some.injEq] at ih
      by_cases hc : c = sep
      · simp [hc, List.takeWhile_cons]
      · have hbne : (c != sep) = true := by simp [hc]
        simp [List.takeWhile_cons, hbne, ih, hc]

theorem dropWhile_cons_of_mem {sep : Char} {l : List Char} (h : sep ∈ l) :
    l.dropWhile (fun c => c != sep) = sep :: (l.dropWhile (fun c => c != sep)).tail := by
  induction l with
  | nil => cases h
  | cons c cs ih =>
    by_cases hc : c = sep
    · subst hc
      have hbne : (c != c) = false := by simp
      simp [List.dropWhile_cons]
    · have hmem : sep ∈ cs := by
        rcases List.mem_cons.mp h with h1 | h1
        · exact absurd h1.symm hc
        · exact h1
      have hbne : (c != sep) = true := by simp [hc]
      simp only [List.dropWhile_cons, hbne, if_true]
      exact ih hmem

theorem splitCharList_of_mem {sep : Char} {l : List Char} (h : sep ∈ l) :
    splitCharList sep l =
      l.takeWhile (fun c => c != sep) ::
        splitCharList sep ((l.dropWhile (fun c => c != sep)).tail) := by
  have hnot : sep ∉ l.takeWhile (fun c => c != sep) := by
    intro hm
    have := List.mem_takeWhile_imp hm
    simp at this
  have hd := dropWhile_cons_of_mem h
  have hsplit : l.takeWhile (fun c => c != sep) ++ sep :: (l.dropWhile (fun c => c != sep)).tail
      = l := by
    conv_rhs => rw [← List.takeWhile_append_dropWhile (p := fun c => c != sep) (l := l)]
    conv_rhs => rw [hd]
  conv_lhs => rw [← hsplit]
  exact splitCharList_append_cons _ hnot

theorem joinCharList_splitCharList (sep : Char) (l : List Char) :
    joinCharList sep (splitCharList sep l) = l := by
  induction l with
  | nil => rfl
  | cons c cs ih =>
    cases h : splitCharList sep cs with
    | nil => exact absurd h (splitCharList_ne_nil sep cs)
    | cons s ss =>
      rw [h] at ih
      by_cases hc : c = sep
      · subst hc
        simp only [splitCharList, h, if_pos rfl, joinCharList, List.nil_append]
        rw [ih]
      · simp only [splitCharList, h, if_neg hc]
        cases ss with
        | nil =>
          simp only [joinCharList] at ih ⊢
          rw [ih]
        | cons s' ss' =>
          simp only [joinCharList, List.cons_append] at ih ⊢
          rw [ih]

theorem data_mk (l : List Char) : (String.mk l).data = l := rfl

theorem mk_data (s : String) : String.mk s.data = s := rfl

theorem jsJoin_map_mk (sep : Char) (ls : List (List Char)) :
    jsJoin (String.mk [sep]) (ls.map String.mk) = String.mk (joinCharList sep ls) := by
  induction ls with
  | nil => rfl
  | cons x xs ih =>
    cases xs with
    | nil => rfl
    | cons y ys =>
      simp only [List.map_cons] at ih ⊢
      simp only [jsJoin, joinCharList]
      rw [ih]
      apply String.ext
      simp [String.data_append]

theorem mem_sortInsert {a x : ReleaseFile} {l : List ReleaseFile} :
    x ∈ sortInsert a l ↔ x = a ∨ x ∈ l := by
  induction l with
  | nil => simp [sortInsert]
  | cons b l ih =>
    by_cases h : b.uploaded ≤ a.uploaded
    · simp [sortInsert, h]
    · simp [sortInsert, h, ih]
      tauto

theorem sortInsert_perm (a : ReleaseFile) (l : List ReleaseFile) :
    List.Perm (sortInsert a l) (a :: l) := by
  induction l with
  | nil => rfl
  | cons b l ih =>
    by_cases h : b.uploaded ≤ a.uploaded
    · simp [sortInsert, h]
    · simp only [sortInsert, if_neg h]
      exact List.Perm.trans (ih.cons b) (List.Perm.swap a b l)

theorem sortByUploadedDesc_perm (l : List ReleaseFile) :
    List.Perm (sortByUploadedDesc l) l := by
  induction l with
  | nil => rfl
  | cons a l ih =>
    exact List.Perm.trans (sortInsert_perm a (sortByUploadedDesc l)) (ih.cons a)

theorem mem_sortByUploadedDesc {x : ReleaseFile} {l : List ReleaseFile} :
    x ∈ sortByUploadedDesc l ↔ x ∈ l :=
  (sortByUploadedDesc_perm l).mem_iff

theorem sortInsert_pairwise (a : ReleaseFile) {l : List ReleaseFile}
    (h : List.Pairwise (fun x y => y.uploaded ≤ x.uploaded) l) :
    List.Pairwise (fun x y => y.uploaded ≤ x.uploaded) (sortInsert a l) := by
  induction l with
  | nil => simp [sortInsert]
  | cons b l ih =>
    rcases List.pairwise_cons.mp h with ⟨hb, hl⟩
    by_cases hba : b.uploaded ≤ a.uploaded
    · rw [sortInsert, if_pos hba]
      refine List.pairwise_cons.mpr ⟨?_, h⟩
      intro x hx
      rcases List.mem_cons.mp hx with rfl | hx
      · exact hba
      · exact le_trans (hb x hx) hba
    · rw [sortInsert, if_neg hba]
      refine List.pairwise_cons.mpr ⟨?_, ih hl⟩
      intro x hx
      rcases mem_sortInsert.mp hx with rfl | hx
      · exact Nat.le_of_lt (Nat.lt_of_not_le hba)
      · exact hb x hx

theorem sortByUploadedDesc_pairwise (l : List ReleaseFile) :
    List.Pairwise (fun x y => y.uploaded ≤ x.uploaded) (sortByUploadedDesc l) := by
  induction l with
  | nil => simp [sortByUploadedDesc]
  | cons a l ih => exact sortInsert_pairwise a ih

theorem filter_sortInsert_pos {a : ReleaseFile} {l : List ReleaseFile} {t : Nat}
    (h : a.uploaded = t) :
    (sortInsert a l).filter (fun r => r.uploaded == t) =
      a :: l.filter (fun r => r.uploaded == t) := by
  induction l with
  | nil => simp [sortInsert, List.filter_cons, h]
  | cons b l ih =>
    by_cases hba : b.uploaded ≤ a.uploaded
    · rw [sortInsert, if_pos hba]
      simp [List.filter_cons, h]
    · have hbt : (b.uploaded == t) = false := by
        have : a.uploaded < b.uploaded := Nat.lt_of_not_le hba
        simp only [beq_eq_false_iff_ne, ne_eq]
        omega
      rw [sortInsert, if_neg hba]
      simp [List.filter_cons, hbt, ih]

theorem filter_sortInsert_neg {a : ReleaseFile} {l : List ReleaseFile} {t : Nat}
    (h : a.uploaded ≠ t) :
    (sortInsert a l).filter (fun r => r.uploaded == t) =
      l.filter (fun r => r.uploaded == t) := by
  induction l with
  | nil => simp [sortInsert, List.filter_cons, h]
  | cons b l ih =>
    by_cases hba : b.uploaded ≤ a.uploaded
    · rw [sortInsert, if_pos hba]
      simp [List.filter_cons, h]
    · rw [sortInsert, if_neg hba]
      by_cases hbt : b.uploaded = t
      · simp [List.filter_cons, hbt, ih]
      · simp [List.filter_cons, hbt, ih]

theorem filter_sortByUploadedDesc (l : List ReleaseFile) (t : Nat) :
    (sortByUploadedDesc l).filter (fun r => r.uploaded == t) =
      l.filter (fun r => r.uploaded == t) := by
  induction l with
  | nil => rfl
  | cons a l ih =>
    by_cases h : a.uploaded = t
    · rw [sortByUploadedDesc, filter_sortInsert_pos h, ih]
      simp [List.filter_cons, h]
    · rw [sortByUploadedDesc, filter_sortInsert_neg h, ih]
      simp [List.filter_cons, h]

theorem length_sortByUploadedDesc (l : List ReleaseFile) :
    (sortByUploadedDesc l).length = l.length :=
  (sortByUploadedDesc_perm l).length_eq

theorem bumpProduct_sumCounts (ps : List (String × ProductStat)) (p : String) (sz : Nat) :
    sumCounts (bumpProduct ps p sz) = sumCounts ps + 1 := by
  induction ps with
  | nil => simp [bumpProduct, sumCounts]
  | cons q rest ih =>
    obtain ⟨q, st⟩ := q
    by_cases h : q = p
    · simp [bumpProduct, h, sumCounts]
      omega
    · simp only [bumpProduct, if_neg h]
      simp only [sumCounts, List.map_cons, List.sum_cons] at ih ⊢
      omega

theorem toReleaseFile_eq_none {o : R2Object} (hp : parseReleaseMetadata o = none) :
    toReleaseFile o = none := by
  simp [toReleaseFile, hp]

theorem toReleaseFile_eq_some {o : R2Object} {m : ReleaseMetadata}
    (hp : parseReleaseMetadata o = some m) :
    toReleaseFile o = some ⟨o.key, o.size, m.uploadDate, m⟩ := by
  simp [toReleaseFile, hp]

theorem computeStats_foldl (objects : List R2Object) : ∀ (s : Stats),
    (objects.foldl statsStep s).totalReleases
        = s.totalReleases + (objects.filterMap toReleaseFile).length ∧
      sumCounts (objects.foldl statsStep s).products
        = sumCounts s.products + (objects.filterMap toReleaseFile).length := by
  induction objects with
  | nil => simp
  | cons o objects ih =>
    intro s
    cases hp : parseReleaseMetadata o with
    | none =>
      have ht := toReleaseFile_eq_none hp
      have hstep : statsStep s o = s := by simp [statsStep, hp]
      simp only [List.foldl_cons, List.filterMap_cons, ht, hstep]
      exact ih s
    | some m =>
      have ht := toReleaseFile_eq_some hp
      have h1 : (statsStep s o).totalReleases = s.totalReleases + 1 := by
        simp [statsStep, hp]
      have h2 : sumCounts (statsStep s o).products = sumCounts s.products + 1 := by
        simp [statsStep, hp, bumpProduct_sumCounts]
      obtain ⟨ha, hb⟩ := ih (statsStep s o)
      simp only [List.foldl_cons, List.filterMap_cons, ht]
      constructor
      · rw [ha, h1]
        simp only [List.length_cons]
        omega
      · rw [hb, h2]
        simp only [List.length_cons]
        omega

example : ("/" : String) = String.mk ['/'] := rfl

theorem jsOr_none (d : String) : jsOr none d = d := rfl

theorem jsOr_some_empty (d : String) : jsOr (some "") d = d := by simp [jsOr]

theorem jsOr_some_ne {s : String} (d : String) (h : s ≠ "") : jsOr (some s) d = s := by
  simp [jsOr, h]

theorem jsOr_ne_empty {o : Option String} {d : String} (h : d ≠ "") : jsOr o d ≠ "" := by
  cases o with
  | none => simpa [jsOr] using h
  | some s =>
    by_cases hs : s = ""
    · simpa [jsOr, hs] using h
    · simp [jsOr, hs]

theorem jsOr_falsy {o : Option String} (d : String) (h : o = none ∨ o = some "") :
    jsOr o d = d := by
  rcases h with h | h <;> simp [h, jsOr]

theorem parse_long {o : R2Object} {t : Nat} {p v pa f1 : String} {fs : List String}
    (hup : o.uploaded = some t)
    (hsplit : jsSplit '/' o.key = p :: v :: pa :: f1 :: fs) :
    parseReleaseMetadata o = some
      { product := jsOr o.customMetadata.product p
        version := jsOr o.customMetadata.version v
        platform := jsOr o.customMetadata.platform ((jsSplit '-' pa).headD "")
        arch := jsOr o.customMetadata.arch (jsOr ((jsSplit '-' pa)[1]?) "unknown")
        uploadDate := t
        size := o.size
        filename := jsJoin "/" (f1 :: fs)
        checksum := o.customMetadata.checksum
        description := o.customMetadata.description } := by
  simp [parseReleaseMetadata, hup, hsplit]

theorem parse_short {o : R2Object} {t : Nat}
    (hup : o.uploaded = some t)
    (hlen : (jsSplit '/' o.key).length < 4) :
    parseReleaseMetadata o = some
      { product := jsOr o.customMetadata.product "unknown"
        version := jsOr o.customMetadata.version "unknown"
        platform := jsOr o.customMetadata.platform "unknown"
        arch := jsOr o.customMetadata.arch "unknown"
        uploadDate := t
        size := o.size
        filename :=
          match (jsSplit '/' o.key).getLast? with
          | none => o.key
          | some s => if s = "" then o.key else s
        checksum := o.customMetadata.checksum
        description := o.customMetadata.description } := by
  rcases hs : jsSplit '/' o.key with _ | ⟨a, _ | ⟨b, _ | ⟨c, _ | ⟨d, rest⟩⟩⟩⟩
  · simp [parseReleaseMetadata, hup, hs]
  · simp [parseReleaseMetadata, hup, hs]
  · simp [parseReleaseMetadata, hup, hs]
  · simp [parseReleaseMetadata, hup, hs]
  · rw [hs] at hlen
    simp at hlen
    omega

theorem jsSplit_long_shape {key : String} (h : ¬(jsSplit '/' key).length < 4) :
    ∃ p v pa f1 fs, jsSplit '/' key = p :: v :: pa :: f1 :: fs := by
  rcases hs : jsSplit '/' key with _ | ⟨p, _ | ⟨v, _ | ⟨pa, _ | ⟨f1, fs⟩⟩⟩⟩
  · exact absurd (by rw [hs]; simp) h
  · exact absurd (by rw [hs]; simp) h
  · exact absurd (by rw [hs]; simp) h
  · exact absurd (by rw [hs]; simp) h
  · exact ⟨p, v, pa, f1, fs, rfl⟩

/-- C7 counterexample: the key `"a/"` has fewer than 4 slash-separated
segments and its last segment is the empty string, yet the parsed
`filename` is the whole key `"a/"`, not that (empty) last segment —
`pop() || key` falls back to the full key whenever the last segment is
empty, not only when no `/` is present. -/
theorem c7_counterexample :
    (jsSplit '/' "a/").length < 4 ∧
      (jsSplit '/' "a/").getLast? = some "" ∧
      (parseReleaseMetadata ⟨"a/", 3, some 9, noTags⟩).map (fun m => m.filename) = some "a/" ∧
      ("a/" : String) ≠ "" := by
  decide

/-- C7 (amended): for keys with fewer than 4 slash-separated segments the
parse takes `filename` to be the last segment when that segment is
non-empty and the whole key otherwise, and resolves `product`, `version`,
`platform` and `arch` purely from the tag map, a missing or empty tag
defaulting to the literal string `"unknown"`. -/
theorem c7_short_key_fallback (o : R2Object) (t : Nat) (m : ReleaseMetadata) (last : String)
    (hup : o.uploaded = some t)
    (hlen : (jsSplit '/' o.key).length < 4)
    (hlast : (jsSplit '/' o.key).getLast? = some last)
    (hm : parseReleaseMetadata o = some m) :
    m.filename = (if last = "" then o.key else last) ∧
      takesTagElseUnknown o.customMetadata.product m.product ∧
      takesTagElseUnknown o.customMetadata.version m.version ∧
      takesTagElseUnknown o.customMetadata.platform m.platform ∧
      takesTagElseUnknown o.customMetadata.arch m.arch := by
  rw [parse_short hup hlen] at hm
  obtain rfl := Option.some.inj hm
  refine ⟨by simp [hlast], ?_, ?_, ?_, ?_⟩ <;>
    exact ⟨fun s hs hne => by simp only [hs]; exact jsOr_some_ne _ hne,
      fun h => jsOr_falsy _ h⟩

/-- C7 witness: the spec's own short-key example `"justafile.exe"`. -/
theorem c7_short_key_fallback_witness :
    (jsSplit '/' "justafile.exe").length < 4 ∧
      ((⟨"unknown", "unknown", "unknown", "unknown", 9, 3, "justafile.exe", none, none⟩ :
            ReleaseMetadata).filename
          = (if ("justafile.exe" : String) = "" then ("justafile.exe" : String)
             else "justafile.exe") ∧
        takesTagElseUnknown noTags.product "unknown" ∧
        takesTagElseUnknown noTags.version "unknown" ∧
        takesTagElseUnknown noTags.platform "unknown" ∧
        takesTagElseUnknown noTags.arch "unknown") :=
  ⟨by decide,
    c7_short_key_fallback ⟨"justafile.exe", 3, some 9, noTags⟩ 9
      ⟨"unknown", "unknown", "unknown", "unknown", 9, 3, "justafile.exe", none, none⟩
      "justafile.exe" rfl (by decide) (by decide) (by decide)⟩

/-- C3 counterexample: the key `"//a-b/f"` has four slash-separated
segments, the first of which is empty; with no tags the resolved
`product` is the empty string — in the ≥ 4-segment branch `product`,
`version` and `platform` have no `"unknown"` fallback. -/
theorem c3_counterexample :
    (parseReleaseMetadata ⟨"//a-b/f", 3, some 9, noTags⟩).map
        (fun m => (m.product, m.version)) = some ("", "") := by
  decide

/-- C3 (amended): whenever the parse succeeds, `arch` is never the empty
string (it always falls back to `"unknown"`), and in the short-key
branch (fewer than 4 segments) `product`, `version` and `platform` are
also never empty; in the ≥ 4-segment branch those three can be empty
when the corresponding key segment is empty. -/
theorem c3_nonempty_fields (o : R2Object) (m : ReleaseMetadata)
    (hm : parseReleaseMetadata o = some m) :
    m.arch ≠ "" ∧
      ((jsSplit '/' o.key).length < 4 →
        m.product ≠ "" ∧ m.version ≠ "" ∧ m.platform ≠ "") := by
  cases hup : o.uploaded with
  | none => simp [parseReleaseMetadata, hup] at hm
  | some t =>
    by_cases hlen : (jsSplit '/' o.key).length < 4
    · rw [parse_short hup hlen] at hm
      obtain rfl := Option.some.inj hm
      exact ⟨jsOr_ne_empty (by decide),
        fun _ => ⟨jsOr_ne_empty (by decide), jsOr_ne_empty (by decide),
          jsOr_ne_empty (by decide)⟩⟩
    · obtain ⟨p, v, pa, f1, fs, hsplit⟩ := jsSplit_long_shape hlen
      rw [parse_long hup hsplit] at hm
      obtain rfl := Option.some.inj hm
      exact ⟨jsOr_ne_empty (jsOr_ne_empty (by decide)), fun hcon => absurd hcon hlen⟩

/-- C3 witness: a 4-segment key with an empty tag map. -/
theorem c3_nonempty_fields_witness :
    parseReleaseMetadata ⟨"p/v/linux-x64/f.bin", 3, some 9, noTags⟩ =
        some ⟨"p", "v", "linux", "x64", 9, 3, "f.bin", none, none⟩ ∧
      (("x64" : String) ≠ "" ∧
        ((jsSplit '/' "p/v/linux-x64/f.bin").length < 4 →
          ("p" : String) ≠ "" ∧ ("v" : String) ≠ "" ∧ ("linux" : String) ≠ "")) :=
  ⟨by decide,
    c3_nonempty_fields ⟨"p/v/linux-x64/f.bin", 3, some 9, noTags⟩
      ⟨"p", "v", "linux", "x64", 9, 3, "f.bin", none, none⟩ (by decide)⟩

theorem mk_eq_empty_iff (l : List Char) : String.mk l = "" ↔ l = [] := by
  constructor
  · intro h
    exact congrArg String.data h
  · intro h
    rw [h]

/-- C6: per-field tag override precedence — a non-empty tag value wins
over the key-derived value for each of `product`, `version`, `platform`
and `arch`, while a missing or empty tag leaves the field at its
key-derived value (the value obtained by parsing the same object with an
empty tag map). -/
theorem c6_tag_override (o : R2Object) (m m0 : ReleaseMetadata)
    (hm : parseReleaseMetadata o = some m)
    (hm0 : parseReleaseMetadata { o with customMetadata := noTags } = some m0) :
    (∀ s, o.customMetadata.product = some s → s ≠ "" → m.product = s) ∧
      (∀ s, o.customMetadata.version = some s → s ≠ "" → m.version = s) ∧
      (∀ s, o.customMetadata.platform = some s → s ≠ "" → m.platform = s) ∧
      (∀ s, o.customMetadata.arch = some s → s ≠ "" → m.arch = s) ∧
      ((o.customMetadata.product = none ∨ o.customMetadata.product = some "") →
        m.product = m0.product) ∧
      ((o.customMetadata.version = none ∨ o.customMetadata.version = some "") →
        m.version = m0.version) ∧
      ((o.customMetadata.platform = none ∨ o.customMetadata.platform = some "") →
        m.platform = m0.platform) ∧
      ((o.customMetadata.arch = none ∨ o.customMetadata.arch = some "") →
        m.arch = m0.arch) := by
  cases hup : o.uploaded with
  | none => simp [parseReleaseMetadata, hup] at hm
  | some t =>
    have hup0 : ({ o with customMetadata := noTags } : R2Object).uploaded = some t := hup
    by_cases hlen : (jsSplit '/' o.key).length < 4
    · rw [parse_short hup hlen] at hm
      rw [parse_short hup0 hlen] at hm0
      obtain rfl := Option.some.inj hm
      obtain rfl := Option.some.inj hm0
      refine ⟨fun s hs hne => ?_, fun s hs hne => ?_, fun s hs hne => ?_, fun s hs hne => ?_,
        fun h => ?_, fun h => ?_, fun h => ?_, fun h => ?_⟩ <;>
        first
          | (simp only [hs]; exact jsOr_some_ne _ hne)
          | (rcases h with h | h <;> simp [h, jsOr, noTags])
    · obtain ⟨p, v, pa, f1, fs, hsplit⟩ := jsSplit_long_shape hlen
      rw [parse_long hup hsplit] at hm
      rw [parse_long hup0 hsplit] at hm0
      obtain rfl := Option.some.inj hm
      obtain rfl := Option.some.inj hm0
      refine ⟨fun s hs hne => ?_, fun s hs hne => ?_, fun s hs hne => ?_, fun s hs hne => ?_,
        fun h => ?_, fun h => ?_, fun h => ?_, fun h => ?_⟩ <;>
        first
          | (simp only [hs]; exact jsOr_some_ne _ hne)
          | (rcases h with h | h <;> simp [h, jsOr, noTags])

/-- C6 witness: the spec's own example — parsing `"p/v/linux-x64/f.bin"`
with the single tag `product = "q"` resolves `product` to `"q"` and all
other fields from the key. -/
theorem c6_tag_override_witness :
    parseReleaseMetadata
        ⟨"p/v/linux-x64/f.bin", 3, some 9,
          ⟨some "q", none, none, none, none, none⟩⟩ =
        some ⟨"q", "v", "linux", "x64", 9, 3, "f.bin", none, none⟩ ∧
      (⟨"q", "v", "linux", "x64", 9, 3, "f.bin", none, none⟩ : ReleaseMetadata).product = "q" ∧
      (⟨"q", "v", "linux", "x64", 9, 3, "f.bin", none, none⟩ : ReleaseMetadata).version
          = (⟨"p", "v", "linux", "x64", 9, 3, "f.bin", none, none⟩ : ReleaseMetadata).version :=
  ⟨by decide,
    (c6_tag_override
        ⟨"p/v/linux-x64/f.bin", 3, some 9, ⟨some "q", none, none, none, none, none⟩⟩
        ⟨"q", "v", "linux", "x64", 9, 3, "f.bin", none, none⟩
        ⟨"p", "v", "linux", "x64", 9, 3, "f.bin", none, none⟩
        (by decide) (by decide)).1 "q" rfl (by decide),
    (c6_tag_override
        ⟨"p/v/linux-x64/f.bin", 3, some 9, ⟨some "q", none, none, none, none, none⟩⟩
        ⟨"q", "v", "linux", "x64", 9, 3, "f.bin", none, none⟩
        ⟨"p", "v", "linux", "x64", 9, 3, "f.bin", none, none⟩
        (by decide) (by decide)).2.2.2.2.2.1 (Or.inl rfl)⟩

/-- C2 counterexample: in the key `"p/v/a-b-c/f"` the third segment
contains two `-` characters; the claim says `arch` is the entire
remainder after the first `-` (`"b-c"`), but destructuring
`platformArch.split('-')` yields only the piece between the first and
second `-`, so the parsed `arch` is `"b"`. -/
theorem c2_counterexample :
    (parseReleaseMetadata ⟨"p/v/a-b-c/f", 3, some 9, noTags⟩).map (fun m => m.arch)
        = some "b" ∧
      ("b" : String) ≠ "b-c" := by
  decide

/-- C2 (amended): for a key with at least 4 slash-separated segments and
no overriding tags, `product` and `version` are the first two segments,
`platform` is the third segment's text before its first `-`, `arch` is
the text strictly between the first and the second `-` of the third
segment (up to its end when there is only one `-`), defaulting to
`"unknown"` when the third segment has no `-` or when that piece is
empty, and `filename` is the remaining segments rejoined with `/`. -/
theorem c2_long_key_parse (o : R2Object) (t : Nat) (s0 s1 s2 f1 : String)
    (fs : List String) (m : ReleaseMetadata)
    (hup : o.uploaded = some t)
    (htags : o.customMetadata = noTags)
    (hsplit : jsSplit '/' o.key = s0 :: s1 :: s2 :: f1 :: fs)
    (hm : parseReleaseMetadata o = some m) :
    m.product = s0 ∧ m.version = s1 ∧
      m.platform = String.mk (s2.data.takeWhile (fun c => c != '-')) ∧
      m.arch = (if '-' ∈ s2.data then
          (if ((s2.data.dropWhile (fun c => c != '-')).tail).takeWhile (fun c => c != '-') = []
            then "unknown"
            else String.mk
              (((s2.data.dropWhile (fun c => c != '-')).tail).takeWhile (fun c => c != '-')))
          else "unknown") ∧
      m.filename = jsJoin "/" (f1 :: fs) ∧ m.uploadDate = t ∧ m.size = o.size := by
  rw [parse_long hup hsplit] at hm
  obtain rfl := Option.some.inj hm
  have hplat : (jsSplit '-' s2).headD "" = String.mk (s2.data.takeWhile (fun c => c != '-')) := by
    rw [jsSplit]
    cases h : splitCharList '-' s2.data with
    | nil => exact absurd h (splitCharList_ne_nil _ _)
    | cons x xs =>
      have hh := splitCharList_head '-' s2.data
      rw [h] at hh
      simp only [List.head?_cons, Option.some.injEq] at hh
      simp [hh]
  have harch : jsOr ((jsSplit '-' s2)[1]?) "unknown"
      = (if '-' ∈ s2.data then
          (if ((s2.data.dropWhile (fun c => c != '-')).tail).takeWhile (fun c => c != '-') = []
            then "unknown"
            else String.mk
              (((s2.data.dropWhile (fun c => c != '-')).tail).takeWhile (fun c => c != '-')))
          else "unknown") := by
    by_cases hmem : '-' ∈ s2.data
    · rw [jsSplit, splitCharList_of_mem hmem, if_pos hmem]
      cases h : splitCharList '-' ((s2.data.dropWhile (fun c => c != '-')).tail) with
      | nil => exact absurd h (splitCharList_ne_nil _ _)
      | cons y ys =>
        have hh := splitCharList_head '-' ((s2.data.dropWhile (fun c => c != '-')).tail)
        rw [h] at hh
        simp only [List.head?_cons, Option.some.injEq] at hh
        rw [← hh]
        simp only [List.map_cons, List.getElem?_cons_succ, List.getElem?_cons_zero]
        by_cases hy : y = []
        · simp [hy, jsOr, mk_eq_empty_iff]
        · rw [if_neg hy]
          exact jsOr_some_ne _ (fun hcon => hy ((mk_eq_empty_iff y).mp hcon))
    · rw [jsSplit, splitCharList_of_not_mem hmem, if_neg hmem]
      rfl
  rw [htags]
  refine ⟨jsOr_none s0, jsOr_none s1, ?_, ?_, rfl, rfl, rfl⟩
  · rw [show (noTags.platform) = none from rfl, jsOr_none, hplat]
  · rw [show (noTags.arch) = none from rfl, jsOr_none, harch]

/-- C2 witness: the conventional key `"p/v/linux-x64/f.bin"` with no tags. -/
theorem c2_long_key_parse_witness :
    jsSplit '/' "p/v/linux-x64/f.bin" = ["p", "v", "linux-x64", "f.bin"] ∧
      (("linux" : String) = String.mk ("linux-x64".data.takeWhile (fun c => c != '-')) ∧
        ("x64" : String) = (if '-' ∈ "linux-x64".data then
            (if (("linux-x64".data.dropWhile (fun c => c != '-')).tail).takeWhile
                  (fun c => c != '-') = []
              then "unknown"
              else String.mk
                ((("linux-x64".data.dropWhile (fun c => c != '-')).tail).takeWhile
                  (fun c => c != '-')))
            else "unknown")) :=
  ⟨by decide,
    (c2_long_key_parse ⟨"p/v/linux-x64/f.bin", 3, some 9, noTags⟩ 9
        "p" "v" "linux-x64" "f.bin" []
        ⟨"p", "v", "linux", "x64", 9, 3, "f.bin", none, none⟩
        rfl rfl (by decide) (by decide)).2.2.1,
    (c2_long_key_parse ⟨"p/v/linux-x64/f.bin", 3, some 9, noTags⟩ 9
        "p" "v" "linux-x64" "f.bin" []
        ⟨"p", "v", "linux", "x64", 9, 3, "f.bin", none, none⟩
        rfl rfl (by decide) (by decide)).2.2.2.1⟩

/-- C5 counterexample: taking `product = "p"`, `version = "v"`,
`platform = "l"`, `arch = ""` and `filename = "f"` (all satisfying the
claim's no-`/`, no-`-` side conditions), the constructed key parses to
`arch = "unknown"`, not the original empty `arch`. -/
theorem c5_counterexample :
    (parseReleaseMetadata
        ⟨"p" ++ "/" ++ "v" ++ "/" ++ "l" ++ "-" ++ "" ++ "/" ++ "f", 3, some 9, noTags⟩).map
        (fun m => m.arch) = some "unknown" ∧
      ("unknown" : String) ≠ "" := by
  decide

/-- C5 (amended): the round-trip holds once `arch` is additionally
required to be non-empty — for any `product`, `version`, `platform`,
`arch` containing no `/`, with no `-` in `platform` or `arch` and `arch`
non-empty, and any `filename`, parsing
`product/version/platform-arch/filename` with an empty tag map recovers
exactly the original five fields. -/
theorem c5_roundtrip (p v pl a f : String) (sz t : Nat)
    (hp : ('/' : Char) ∉ p.data) (hv : ('/' : Char) ∉ v.data)
    (hpl1 : ('/' : Char) ∉ pl.data) (hpl2 : ('-' : Char) ∉ pl.data)
    (ha1 : ('/' : Char) ∉ a.data) (ha2 : ('-' : Char) ∉ a.data) (ha3 : a ≠ "") :
    parseReleaseMetadata
        ⟨p ++ "/" ++ v ++ "/" ++ pl ++ "-" ++ a ++ "/" ++ f, sz, some t, noTags⟩
      = some ⟨p, v, pl, a, t, sz, f, none, none⟩ := by
  have hkey : (p ++ "/" ++ v ++ "/" ++ pl ++ "-" ++ a ++ "/" ++ f).data
      = p.data ++ '/' :: (v.data ++ '/' :: ((pl.data ++ '-' :: a.data) ++ '/' :: f.data)) := by
    simp [String.data_append, List.append_assoc,
      show ("/" : String).data = ['/'] from rfl, show ("-" : String).data = ['-'] from rfl]
  have hpa : ('/' : Char) ∉ pl.data ++ '-' :: a.data := by
    intro hmem
    rcases List.mem_append.mp hmem with h | h
    · exact hpl1 h
    · rcases List.mem_cons.mp h with h | h
      · exact absurd h (by decide)
      · exact ha1 h
  have hsplit1 : splitCharList '/' ((p ++ "/" ++ v ++ "/" ++ pl ++ "-" ++ a ++ "/" ++ f).data)
      = p.data :: v.data :: (pl.data ++ '-' :: a.data) :: splitCharList '/' f.data := by
    rw [hkey, splitCharList_append_cons _ hp, splitCharList_append_cons _ hv,
      splitCharList_append_cons _ hpa]
  cases hsf : splitCharList '/' f.data with
  | nil => exact absurd hsf (splitCharList_ne_nil _ _)
  | cons s ss =>
    have hsplit : jsSplit '/' (p ++ "/" ++ v ++ "/" ++ pl ++ "-" ++ a ++ "/" ++ f)
        = p :: v :: String.mk (pl.data ++ '-' :: a.data)
            :: String.mk s :: List.map String.mk ss := by
      rw [jsSplit, hsplit1, hsf]
      simp [mk_data]
    rw [parse_long rfl hsplit]
    have hdash : jsSplit '-' (String.mk (pl.data ++ '-' :: a.data)) = [pl, a] := by
      rw [jsSplit, data_mk, splitCharList_append_cons _ hpl2, splitCharList_of_not_mem ha2]
      simp [mk_data]
    have hfile : jsJoin "/" (String.mk s :: List.map String.mk ss) = f := by
      rw [show (String.mk s :: List.map String.mk ss)
            = List.map String.mk (splitCharList '/' f.data) by rw [hsf]; simp,
        show ("/" : String) = String.mk ['/'] from rfl,
        jsJoin_map_mk, joinCharList_splitCharList, mk_data]
    simp [hdash, hfile, noTags, jsOr, ha3]

/-- C5 witness: a conventional key with a nested sub-path in the
filename portion. -/
theorem c5_roundtrip_witness :
    parseReleaseMetadata
        ⟨"cogix-desktop" ++ "/" ++ "1.0.0" ++ "/" ++ "windows" ++ "-" ++ "x64" ++ "/"
            ++ "nested/setup.exe", 7, some 11, noTags⟩
      = some ⟨"cogix-desktop", "1.0.0", "windows", "x64", 11, 7, "nested/setup.exe",
          none, none⟩ :=
  c5_roundtrip "cogix-desktop" "1.0.0" "windows" "x64" "nested/setup.exe" 7 11
    (by decide) (by decide) (by decide) (by decide) (by decide) (by decide) (by decide)

theorem strEndsWith_append (x u suf : String) (h : strEndsWith u suf = true) :
    strEndsWith (x ++ u) suf = true := by
  simp only [strEndsWith, List.isSuffixOf_iff_suffix, String.data_append] at h ⊢
  exact h.trans (List.suffix_append x.data u.data)

/-- C4 counterexample: at `b = 2^51` the exponent
`i = floor(log b / log 1024) = 5` is NOT clamped to the unit list's index
range: `sizes[5]` is `undefined`, so the formatter returns
`"2 undefined"` instead of the `"2048 TB"` the clamped formula in the
claim prescribes. -/
theorem c4_counterexample :
    formatFileSize 2251799813685248 = "2 undefined" ∧
      ("2 undefined" : String) ≠ "2048 TB" := by
  have hlog : Nat.log 1024 2251799813685248 = 5 :=
    Nat.log_eq_of_pow_le_of_lt_pow (by norm_num) (by norm_num)
  have h1 : (200 * 2251799813685248 + 1024 ^ 5) / (2 * 1024 ^ 5) = 200 := by norm_num
  refine ⟨?_, by decide⟩
  simp only [formatFileSize, hlog, h1]
  decide

/-- C4 (amended): the formatter computes `i = floor(log b / log 1024)`
WITHOUT clamping: for `b < 1024^5` the selected unit is one of
`B/KB/MB/GB/TB` (all ending in `"B"`), while for `b ≥ 1024^5` the result
ends in `"undefined"`; `0` formats as `"0 B"` exactly, and the claim's
in-range examples hold: `formatSize 1536 = "1.5 KB"` and
`formatSize 1073741824 = "1 GB"`. -/
theorem c4_format_file_size :
    formatFileSize 0 = "0 B" ∧ formatFileSize 1536 = "1.5 KB" ∧
      formatFileSize 1073741824 = "1 GB" ∧
      (∀ b, 1024 ^ 5 ≤ b → strEndsWith (formatFileSize b) "undefined" = true) ∧
      (∀ b, 0 < b → b < 1024 ^ 5 → strEndsWith (formatFileSize b) "B" = true) := by
  refine ⟨rfl, ?_, ?_, ?_, ?_⟩
  · have hlog : Nat.log 1024 1536 = 1 :=
      Nat.log_eq_of_pow_le_of_lt_pow (by norm_num) (by norm_num)
    have h1 : (200 * 1536 + 1024 ^ 1) / (2 * 1024 ^ 1) = 150 := by norm_num
    simp only [formatFileSize, hlog, h1]
    decide
  · have hlog : Nat.log 1024 1073741824 = 3 :=
      Nat.log_eq_of_pow_le_of_lt_pow (by norm_num) (by norm_num)
    have h1 : (200 * 1073741824 + 1024 ^ 3) / (2 * 1024 ^ 3) = 100 := by norm_num
    simp only [formatFileSize, hlog, h1]
    decide
  · intro b hb
    have h5 : (0 : Nat) < 1024 ^ 5 := by norm_num
    have hb0 : b ≠ 0 := by omega
    have hlog5 : 5 ≤ Nat.log 1024 b := (Nat.pow_le_iff_le_log (by norm_num) hb0).mp hb
    have hunit : sizeUnit (Nat.log 1024 b) = "undefined" := by
      rw [sizeUnit, List.getElem?_eq_none]
      · rfl
      · simpa using hlog5
    simp only [formatFileSize, if_neg hb0, hunit]
    exact strEndsWith_append _ _ _ (by decide)
  · intro b hb0 hb5
    have hlt : Nat.log 1024 b < 5 := (Nat.lt_pow_iff_log_lt (by norm_num) (by omega)).mp hb5
    simp only [formatFileSize, if_neg (by omega : ¬b = 0)]
    apply strEndsWith_append
    set i := Nat.log 1024 b with hi
    interval_cases i <;> decide

/-- C8: `list()` returns exactly the successfully parsed entries
(a permutation of them), sorted by `uploaded` descending, and the sort is
stable — for every timestamp the sub-sequence of entries carrying it is
exactly the input sub-sequence in input order; in particular three
entries with timestamps 100, 200, 200 come back as
[first-200, second-200, 100]. -/
theorem c8_list_sorted_stable (objects : List R2Object) :
    List.Perm (listReleases objects) (objects.filterMap toReleaseFile) ∧
      List.Pairwise (fun a b => b.uploaded ≤ a.uploaded) (listReleases objects) ∧
      (∀ t, (listReleases objects).filter (fun r => r.uploaded == t)
          = (objects.filterMap toReleaseFile).filter (fun r => r.uploaded == t)) ∧
      (listReleases
          [⟨"p/1.0/l-x/a.bin", 1, some 100, noTags⟩,
            ⟨"p/1.0/l-x/b.bin", 1, some 200, noTags⟩,
            ⟨"p/1.0/l-x/c.bin", 1, some 200, noTags⟩]).map (fun r => (r.key, r.uploaded))
        = [("p/1.0/l-x/b.bin", 200), ("p/1.0/l-x/c.bin", 200), ("p/1.0/l-x/a.bin", 100)] :=
  ⟨sortByUploadedDesc_perm _, sortByUploadedDesc_pairwise _,
    fun t => filter_sortByUploadedDesc _ t, by decide⟩

/-- C9: aggregate consistency — the stats' `totalReleases` equals the
length of `list()` over the same batch, and the per-product counts sum
to `totalReleases` (both views drop exactly the unparseable entries). -/
theorem c9_aggregate_consistency (objects : List R2Object) :
    (computeStats objects).totalReleases = (listReleases objects).length ∧
      sumCounts (computeStats objects).products = (computeStats objects).totalReleases := by
  obtain ⟨h1, h2⟩ := computeStats_foldl objects ⟨0, 0, [], [], none⟩
  constructor
  · rw [listReleases, length_sortByUploadedDesc, computeStats, h1]
    simp
  · rw [computeStats, h1, h2]
    simp [sumCounts]

theorem toReleaseFile_key {o : R2Object} {r : ReleaseFile}
    (h : toReleaseFile o = some r) : r.key = o.key := by
  rw [toReleaseFile] at h
  cases hp : parseReleaseMetadata o with
  | none => rw [hp] at h; cases h
  | some m =>
    rw [hp] at h
    obtain rfl := Option.some.inj h
    rfl

theorem toReleaseFile_metadata {o : R2Object} {r : ReleaseFile}
    (h : toReleaseFile o = some r) : parseReleaseMetadata o = some r.metadata := by
  rw [toReleaseFile] at h
  cases hp : parseReleaseMetadata o with
  | none => rw [hp] at h; cases h
  | some m =>
    rw [hp] at h
    obtain rfl := Option.some.inj h
    rfl

theorem parse_product_of_tag {o : R2Object} {m : ReleaseMetadata} {s : String}
    (hm : parseReleaseMetadata o = some m)
    (htag : o.customMetadata.product = some s) (hs : s ≠ "") : m.product = s := by
  cases hup : o.uploaded with
  | none => simp [parseReleaseMetadata, hup] at hm
  | some t =>
    by_cases hlen : (jsSplit '/' o.key).length < 4
    · rw [parse_short hup hlen] at hm
      obtain rfl := Option.some.inj hm
      simp only [htag]
      exact jsOr_some_ne _ hs
    · obtain ⟨p, v, pa, f1, fs, hsplit⟩ := jsSplit_long_shape hlen
      rw [parse_long hup hsplit] at hm
      obtain rfl := Option.some.inj hm
      simp only [htag]
      exact jsOr_some_ne _ hs

/-- C10: every entry returned by the product-scoped listing has a key
that starts with `product ++ "/"` — the storage prefix listing makes the
key-prefix condition an invariant of the returned sequence, over and
above the resolved-product equality filter. -/
theorem c10_prefix_invariant (objects : List R2Object) (product : String) (r : ReleaseFile)
    (hr : r ∈ listProductReleases objects product) :
    hasPref (product ++ "/") r.key = true := by
  rw [listProductReleases, mem_sortByUploadedDesc] at hr
  obtain ⟨hmem, hprod⟩ := List.mem_filter.mp hr
  obtain ⟨o, ho, hto⟩ := List.mem_filterMap.mp hmem
  rw [r2ListWithPref] at ho
  obtain ⟨ho2, hpref⟩ := List.mem_filter.mp ho
  rw [toReleaseFile_key hto]
  exact hpref

/-- C10 witness: a store with one conventionally-keyed object. -/
theorem c10_prefix_invariant_witness :
    (⟨"p/1.0/l-x/a.bin", 1, 100, ⟨"p", "1.0", "l", "x", 100, 1, "a.bin", none, none⟩⟩ :
          ReleaseFile) ∈
        listProductReleases [⟨"p/1.0/l-x/a.bin", 1, some 100, noTags⟩] "p" ∧
      hasPref ("p" ++ "/")
        (⟨"p/1.0/l-x/a.bin", 1, 100, ⟨"p", "1.0", "l", "x", 100, 1, "a.bin", none, none⟩⟩ :
          ReleaseFile).key = true :=
  ⟨by decide,
    c10_prefix_invariant [⟨"p/1.0/l-x/a.bin", 1, some 100, noTags⟩] "p"
      ⟨"p/1.0/l-x/a.bin", 1, 100, ⟨"p", "1.0", "l", "x", 100, 1, "a.bin", none, none⟩⟩
      (by decide)⟩

/-- C1 counterexample: the single stored entry has key prefix
`"productA/"` but tag `product = "productB"`.  It is (correctly) absent
from `listByProduct("productA")`, but — contrary to the claim — it is
ALSO absent from `listByProduct("productB")`: the storage listing for
`"productB"` only fetches keys under `"productB/"`, so the entry is
never seen there. -/
theorem c1_counterexample :
    listProductReleases
          [⟨"productA/1.0.0/linux-x64/app.bin", 3, some 9,
            ⟨some "productB", none, none, none, none, none⟩⟩] "productB" = [] ∧
      listProductReleases
          [⟨"productA/1.0.0/linux-x64/app.bin", 3, some 9,
            ⟨some "productB", none, none, none, none, none⟩⟩] "productA" = [] := by
  decide

/-- C1 (amended): a storage entry whose key begins with `"productA/"`
but whose tag overrides `product` to `"productB"` appears in NEITHER
product-scoped listing: it is excluded from `listByProduct("productA")`
by the authoritative resolved-metadata filter, and excluded from
`listByProduct("productB")` because the storage prefix listing never
fetches a key under a different prefix. -/
theorem c1_override_excluded_everywhere (objects : List R2Object) (o : R2Object)
    (rest : String) (r : ReleaseFile)
    (hkey : o.key = "productA/" ++ rest)
    (htag : o.customMetadata.product = some "productB")
    (hr : toReleaseFile o = some r) :
    r ∉ listProductReleases objects "productA" ∧
      r ∉ listProductReleases objects "productB" := by
  have hprod : r.metadata.product = "productB" :=
    parse_product_of_tag (toReleaseFile_metadata hr) htag (by decide)
  have hrkey : r.key = o.key := toReleaseFile_key hr
  constructor
  · intro hmem
    rw [listProductReleases, mem_sortByUploadedDesc] at hmem
    have hcond := (List.mem_filter.mp hmem).2
    rw [hprod] at hcond
    exact absurd hcond (by decide)
  · intro hmem
    rw [listProductReleases, mem_sortByUploadedDesc] at hmem
    obtain ⟨o2, ho2, hto2⟩ := List.mem_filterMap.mp (List.mem_filter.mp hmem).1
    rw [r2ListWithPref] at ho2
    have hpref := (List.mem_filter.mp ho2).2
    rw [← toReleaseFile_key hto2, hrkey, hkey] at hpref
    have hpre : ("productB" ++ "/").data <+: ("productA/" ++ rest).data := by
      rw [hasPref] at hpref
      exact List.isPrefixOf_iff_prefix.mp hpref
    have hq : ("productA/" : String).data <+: ("productA/" ++ rest).data := by
      rw [String.data_append]
      exact List.prefix_append _ _
    have hle : ("productB" ++ "/").data.length ≤ ("productA/" : String).data.length := by
      decide
    have heq := List.IsPrefix.eq_of_length
      (List.prefix_of_prefix_length_le hpre hq hle) (by decide)
    exact absurd heq (by decide)

/-- C1 witness: the counterexample store, via the amended theorem. -/
theorem c1_override_excluded_everywhere_witness :
    ("productA/1.0.0/linux-x64/app.bin" : String) = "productA/" ++ "1.0.0/linux-x64/app.bin" ∧
      ((⟨"productA/1.0.0/linux-x64/app.bin", 3, 9,
            ⟨"productB", "1.0.0", "linux", "x64", 9, 3, "app.bin", none, none⟩⟩ :
            ReleaseFile) ∉
          listProductReleases
            [⟨"productA/1.0.0/linux-x64/app.bin", 3, some 9,
              ⟨some "productB", none, none, none, none, none⟩⟩] "productA" ∧
        (⟨"productA/1.0.0/linux-x64/app.bin", 3, 9,
            ⟨"productB", "1.0.0", "linux", "x64", 9, 3, "app.bin", none, none⟩⟩ :
            ReleaseFile) ∉
          listProductReleases
            [⟨"productA/1.0.0/linux-x64/app.bin", 3, some 9,
              ⟨some "productB", none, none, none, none, none⟩⟩] "productB") :=
  ⟨by decide,
    c1_override_excluded_everywhere
      [⟨"productA/1.0.0/linux-x64/app.bin", 3, some 9,
        ⟨some "productB", none, none, none, none, none⟩⟩]
      ⟨"productA/1.0.0/linux-x64/app.bin", 3, some 9,
        ⟨some "productB", none, none, none, none, none⟩⟩
      "1.0.0/linux-x64/app.bin"
      ⟨"productA/1.0.0/linux-x64/app.bin", 3, 9,
        ⟨"productB", "1.0.0", "linux", "x64", 9, 3, "app.bin", none, none⟩⟩
      (by decide) rfl (by decide)⟩
